import Mathlib

/-!
# Verification of the GF(2^m) arithmetic kernel

A shallow embedding of the scalar "calculate" arithmetic functions of the
`GF2m` class (`src/galois/_fields/_gf2m.py`) of the `galois` repository,
together with proofs of functional-correctness and algebraic properties.

Field elements are natural numbers in `[0, 2^DEGREE)` interpreted as
coefficient vectors of polynomials over GF(2); the irreducible polynomial
is likewise encoded as a natural number.  The mathematical reference model
is `Polynomial (ZMod 2)` and the quotient ring `AdjoinRoot`.
-/

namespace Galois

/-- Errors raised by the composite kernels: `ZeroDivisionError` for
division by zero (reciprocal/divide/power), `ArithmeticError` for the
discrete logarithm of zero. -/
inductive GFError where
  | divisionByZero
  | domainError
deriving DecidableEq

instance : DecidableEq (Except GFError Nat)
  | .error a, .error b =>
    if h : a = b then .isTrue (h ▸ rfl)
    else .isFalse fun hc => h (Except.error.inj hc)
  | .error _, .ok _ => .isFalse Except.noConfusion
  | .ok _, .error _ => .isFalse Except.noConfusion
  | .ok a, .ok b =>
    if h : a = b then .isTrue (h ▸ rfl)
    else .isFalse fun hc => h (Except.ok.inj hc)

/-- The `while b > 0` loop of `GF2m._multiply_calculate`: carry-less
multiplication of `a` and `b` with interleaved reduction by
`IRREDUCIBLE_POLY` whenever the shifted operand reaches `ORDER`,
accumulating into `c`. -/
def mulLoop (ORDER IRREDUCIBLE_POLY : Nat) (a b c : Nat) : Nat :=
  if h : b = 0 then c
  else
    mulLoop ORDER IRREDUCIBLE_POLY
      (if ORDER ≤ 2 * a then (2 * a) ^^^ IRREDUCIBLE_POLY else 2 * a)
      (b / 2)
      (if b % 2 = 1 then c ^^^ a else c)
termination_by b
decreasing_by exact Nat.div_lt_self (Nat.pos_of_ne_zero h) one_lt_two

/-- `GF2m._multiply_calculate`: product of `a` and `b` in GF(2^m),
computed by binary polynomial multiplication with reduction modulo the
irreducible polynomial.  The operands are swapped first so that the loop
runs over the smaller one. -/
def multiply_calculate (a b CHARACTERISTIC DEGREE IRREDUCIBLE_POLY : Nat) : Nat :=
  let ORDER := CHARACTERISTIC ^ DEGREE
  if a < b then mulLoop ORDER IRREDUCIBLE_POLY b a 0
  else mulLoop ORDER IRREDUCIBLE_POLY a b 0

/-- `GF2m._add_calculate`: addition in GF(2^m) is bitwise XOR. -/
def add_calculate (a b CHARACTERISTIC DEGREE IRREDUCIBLE_POLY : Nat) : Nat :=
  a ^^^ b

/-- `GF2m._negative_calculate`: negation is the identity in characteristic 2. -/
def negative_calculate (a CHARACTERISTIC DEGREE IRREDUCIBLE_POLY : Nat) : Nat :=
  a

/-- `GF2m._subtract_calculate`: subtraction is bitwise XOR. -/
def subtract_calculate (a b CHARACTERISTIC DEGREE IRREDUCIBLE_POLY : Nat) : Nat :=
  a ^^^ b

/-- The `while exponent > 1` square-and-multiply loop shared (textually
identical) by `GF2m._reciprocal_calculate` and `GF2m._power_calculate`.
Returns the final pair `(result_s, result_m)`. -/
def smLoop (CHARACTERISTIC DEGREE IRREDUCIBLE_POLY : Nat)
    (exponent result_s result_m : Nat) : Nat × Nat :=
  if exponent ≤ 1 then (result_s, result_m)
  else if exponent % 2 = 0 then
    smLoop CHARACTERISTIC DEGREE IRREDUCIBLE_POLY (exponent / 2)
      (multiply_calculate result_s result_s CHARACTERISTIC DEGREE IRREDUCIBLE_POLY)
      result_m
  else
    smLoop CHARACTERISTIC DEGREE IRREDUCIBLE_POLY (exponent - 1)
      result_s
      (multiply_calculate result_m result_s CHARACTERISTIC DEGREE IRREDUCIBLE_POLY)
termination_by exponent
decreasing_by
  · exact Nat.div_lt_self (by omega) one_lt_two
  · omega

/-- `GF2m._reciprocal_calculate`: `a⁻¹ = a^(ORDER - 2)` by square-and-multiply
(Fermat's little theorem); raises `ZeroDivisionError` on `a = 0`. -/
def reciprocal_calculate (a CHARACTERISTIC DEGREE IRREDUCIBLE_POLY : Nat) :
    Except GFError Nat :=
  if a = 0 then .error .divisionByZero
  else
    let ORDER := CHARACTERISTIC ^ DEGREE
    let sm := smLoop CHARACTERISTIC DEGREE IRREDUCIBLE_POLY (ORDER - 2) a 1
    .ok (multiply_calculate sm.2 sm.1 CHARACTERISTIC DEGREE IRREDUCIBLE_POLY)

/-- `GF2m._divide_calculate`: raises `ZeroDivisionError` when `b = 0`,
returns `0` when `a = 0`, else `a * b⁻¹`. -/
def divide_calculate (a b CHARACTERISTIC DEGREE IRREDUCIBLE_POLY : Nat) :
    Except GFError Nat :=
  if b = 0 then .error .divisionByZero
  else if a = 0 then .ok 0
  else do
    let b_inv ← reciprocal_calculate b CHARACTERISTIC DEGREE IRREDUCIBLE_POLY
    .ok (multiply_calculate a b_inv CHARACTERISTIC DEGREE IRREDUCIBLE_POLY)

/-- `GF2m._power_calculate`: `a^b` for an integer (possibly negative)
exponent `b`; raises `ZeroDivisionError` when `a = 0 ∧ b < 0`, returns `1`
when `b = 0`, replaces `a` by its reciprocal and `b` by `|b|` when `b < 0`,
then runs the square-and-multiply loop. -/
def power_calculate (a : Nat) (b : Int) (CHARACTERISTIC DEGREE IRREDUCIBLE_POLY : Nat) :
    Except GFError Nat :=
  if a = 0 ∧ b < 0 then .error .divisionByZero
  else if b = 0 then .ok 1
  else do
    let a' ← if b < 0
      then reciprocal_calculate a CHARACTERISTIC DEGREE IRREDUCIBLE_POLY
      else .ok a
    let sm := smLoop CHARACTERISTIC DEGREE IRREDUCIBLE_POLY b.natAbs a' 1
    .ok (multiply_calculate sm.2 sm.1 CHARACTERISTIC DEGREE IRREDUCIBLE_POLY)

/-- The `for i in range(0, ORDER - 1)` loop of `GF2m._log_calculate`:
starting from an accumulator `result`, repeatedly compare with `a` and
multiply by `b`; return the loop index at the break (or the final index
`N - 1` when the loop runs out). -/
def logLoop (a b CHARACTERISTIC DEGREE IRREDUCIBLE_POLY N : Nat)
    (result i : Nat) : Nat :=
  if result = a then i
  else if i + 1 < N then
    logLoop a b CHARACTERISTIC DEGREE IRREDUCIBLE_POLY N
      (multiply_calculate result b CHARACTERISTIC DEGREE IRREDUCIBLE_POLY) (i + 1)
  else i
termination_by N - i

/-- `GF2m._log_calculate`: brute-force discrete logarithm; raises
`ArithmeticError` on `a = 0`, otherwise scans exponents `0 .. ORDER - 2`. -/
def log_calculate (a b CHARACTERISTIC DEGREE IRREDUCIBLE_POLY : Nat) :
    Except GFError Nat :=
  if a = 0 then .error .domainError
  else
    let ORDER := CHARACTERISTIC ^ DEGREE
    .ok (logLoop a b CHARACTERISTIC DEGREE IRREDUCIBLE_POLY (ORDER - 1) 1 0)

/-- `GF2m._sqrt`: `a ** (characteristic ** (degree - 1))`, elementwise the
exponentiation kernel applied with exponent `2^(DEGREE-1)`. -/
def sqrt' (a CHARACTERISTIC DEGREE IRREDUCIBLE_POLY : Nat) : Except GFError Nat :=
  power_calculate a ((CHARACTERISTIC ^ (DEGREE - 1) : Nat) : Int)
    CHARACTERISTIC DEGREE IRREDUCIBLE_POLY

/-- Repeated multiplication of `a` by itself `e` times (empty product `1`),
the reference semantics the spec uses for exponentiation, built from the
kernel's own multiply. -/
def iterMul (a CHARACTERISTIC DEGREE IRREDUCIBLE_POLY : Nat) : Nat → Nat
  | 0 => 1
  | e + 1 =>
    multiply_calculate (iterMul a CHARACTERISTIC DEGREE IRREDUCIBLE_POLY e) a
      CHARACTERISTIC DEGREE IRREDUCIBLE_POLY

/-!
## Fuelled mirrors

The loops above use well-founded recursion, which the kernel cannot reduce
definitionally, so concrete instances cannot be settled by `decide`.  The
following structurally recursive variants carry an explicit fuel argument;
they are proved pointwise equal to the loops (for sufficient fuel) and are
used only to evaluate the kernels on concrete inputs. -/

/-- Fuelled variant of `mulLoop`; with `b ≤ fuel` it agrees with `mulLoop`. -/
def mulLoopF (ORDER IRREDUCIBLE_POLY : Nat) : Nat → Nat → Nat → Nat → Nat
  | 0, _, _, c => c
  | fuel + 1, a, b, c =>
    if b = 0 then c
    else
      mulLoopF ORDER IRREDUCIBLE_POLY fuel
        (if ORDER ≤ 2 * a then (2 * a) ^^^ IRREDUCIBLE_POLY else 2 * a)
        (b / 2)
        (if b % 2 = 1 then c ^^^ a else c)

theorem mulLoopF_eq (ORDER P : Nat) :
    ∀ fuel b, b ≤ fuel → ∀ a c, mulLoop ORDER P a b c = mulLoopF ORDER P fuel a b c := by
  intro fuel
  induction fuel with
  | zero =>
    intro b hb a c
    rw [mulLoop]
    simp [Nat.le_zero.mp hb, mulLoopF]
  | succ fuel ih =>
    intro b hb a c
    rw [mulLoop, mulLoopF]
    by_cases h : b = 0
    · simp [h]
    · simp only [h, dite_false, if_false]
      have : b / 2 ≤ fuel := by omega
      exact ih (b / 2) this _ _

/-- Evaluation form of `multiply_calculate` in terms of the fuelled loop. -/
def multiplyF (a b CHARACTERISTIC DEGREE IRREDUCIBLE_POLY : Nat) : Nat :=
  let ORDER := CHARACTERISTIC ^ DEGREE
  if a < b then mulLoopF ORDER IRREDUCIBLE_POLY a b a 0
  else mulLoopF ORDER IRREDUCIBLE_POLY b a b 0

theorem multiply_calculate_eq_multiplyF (a b C D P : Nat) :
    multiply_calculate a b C D P = multiplyF a b C D P := by
  rw [multiply_calculate, multiplyF]
  by_cases h : a < b
  · simp only [h, if_true]
    exact mulLoopF_eq (C ^ D) P a a le_rfl b 0
  · simp only [h, if_false]
    exact mulLoopF_eq (C ^ D) P b b le_rfl a 0

/-- Fuelled variant of `smLoop`; with `exponent ≤ fuel` it agrees with `smLoop`. -/
def smLoopF (C D P : Nat) : Nat → Nat → Nat → Nat → Nat × Nat
  | 0, _, s, m => (s, m)
  | fuel + 1, exponent, s, m =>
    if exponent ≤ 1 then (s, m)
    else if exponent % 2 = 0 then
      smLoopF C D P fuel (exponent / 2) (multiplyF s s C D P) m
    else
      smLoopF C D P fuel (exponent - 1) s (multiplyF m s C D P)

theorem smLoopF_eq (C D P : Nat) :
    ∀ fuel e, e ≤ fuel → ∀ s m, smLoop C D P e s m = smLoopF C D P fuel e s m := by
  intro fuel
  induction fuel with
  | zero =>
    intro e he s m
    rw [smLoop]
    simp [Nat.le_zero.mp he, smLoopF]
  | succ fuel ih =>
    intro e he s m
    rw [smLoop, smLoopF]
    by_cases h1 : e ≤ 1
    · simp [h1]
    · simp only [h1, if_false]
      by_cases h2 : e % 2 = 0
      · simp only [h2, if_true]
        rw [multiply_calculate_eq_multiplyF, ih (e / 2) (by omega)]
      · simp only [h2, if_false]
        rw [multiply_calculate_eq_multiplyF, ih (e - 1) (by omega)]

/-- Evaluation form of `reciprocal_calculate`. -/
def reciprocalF (a C D P : Nat) : Except GFError Nat :=
  if a = 0 then .error .divisionByZero
  else
    let ORDER := C ^ D
    let sm := smLoopF C D P (ORDER - 2) (ORDER - 2) a 1
    .ok (multiplyF sm.2 sm.1 C D P)

theorem reciprocal_calculate_eq_reciprocalF (a C D P : Nat) :
    reciprocal_calculate a C D P = reciprocalF a C D P := by
  rw [reciprocal_calculate, reciprocalF]
  by_cases h : a = 0
  · simp [h]
  · simp only [h, if_false]
    rw [smLoopF_eq C D P (C ^ D - 2) (C ^ D - 2) le_rfl, multiply_calculate_eq_multiplyF]

theorem ok_bind {β : Type} (x : Nat) (f : Nat → Except GFError β) :
    (Except.ok x >>= f : Except GFError β) = f x := rfl

/-- Evaluation form of `divide_calculate`. -/
def divideF (a b C D P : Nat) : Except GFError Nat :=
  if b = 0 then .error .divisionByZero
  else if a = 0 then .ok 0
  else do
    let b_inv ← reciprocalF b C D P
    .ok (multiplyF a b_inv C D P)

theorem divide_calculate_eq_divideF (a b C D P : Nat) :
    divide_calculate a b C D P = divideF a b C D P := by
  rw [divide_calculate, divideF]
  by_cases hb : b = 0
  · simp [hb]
  · by_cases ha : a = 0
    · simp [ha, hb]
    · simp only [ha, hb, if_false]
      rw [reciprocal_calculate_eq_reciprocalF]
      cases reciprocalF b C D P with
      | error e => rfl
      | ok v => simp only [ok_bind, multiply_calculate_eq_multiplyF]

/-- Evaluation form of `power_calculate`. -/
def powerF (a : Nat) (b : Int) (C D P : Nat) : Except GFError Nat :=
  if a = 0 ∧ b < 0 then .error .divisionByZero
  else if b = 0 then .ok 1
  else do
    let a' ← if b < 0 then reciprocalF a C D P else .ok a
    let sm := smLoopF C D P b.natAbs b.natAbs a' 1
    .ok (multiplyF sm.2 sm.1 C D P)

theorem power_calculate_eq_powerF (a : Nat) (b : Int) (C D P : Nat) :
    power_calculate a b C D P = powerF a b C D P := by
  rw [power_calculate, powerF]
  by_cases h0 : a = 0 ∧ b < 0
  · simp [h0]
  · simp only [h0, if_false]
    by_cases hb : b = 0
    · simp [hb]
    · simp only [hb, if_false]
      by_cases hneg : b < 0
      · simp only [hneg, if_true]
        rw [reciprocal_calculate_eq_reciprocalF]
        cases reciprocalF a C D P with
        | error e => rfl
        | ok v =>
          simp only [ok_bind]
          rw [smLoopF_eq C D P b.natAbs b.natAbs le_rfl, multiply_calculate_eq_multiplyF]
      · simp only [hneg, if_false, ok_bind]
        rw [smLoopF_eq C D P b.natAbs b.natAbs le_rfl, multiply_calculate_eq_multiplyF]

/-- Fuelled variant of `logLoop`; with `N - i ≤ fuel` it agrees with `logLoop`. -/
def logLoopF (a b C D P N : Nat) : Nat → Nat → Nat → Nat
  | 0, _, i => i
  | fuel + 1, result, i =>
    if result = a then i
    else if i + 1 < N then
      logLoopF a b C D P N fuel (multiplyF result b C D P) (i + 1)
    else i

theorem logLoopF_eq (a b C D P N : Nat) :
    ∀ fuel i, N ≤ i + fuel → ∀ r,
      logLoop a b C D P N r i = logLoopF a b C D P N fuel r i := by
  intro fuel
  induction fuel with
  | zero =>
    intro i hi r
    rw [logLoop, logLoopF]
    have h2 : ¬ i + 1 < N := by omega
    simp [h2]
  | succ fuel ih =>
    intro i hi r
    rw [logLoop, logLoopF]
    by_cases h1 : r = a
    · simp [h1]
    · simp only [h1, if_false]
      by_cases h2 : i + 1 < N
      · simp only [h2, if_true]
        rw [multiply_calculate_eq_multiplyF, ih (i + 1) (by omega)]
      · simp [h2]

/-- Evaluation form of `log_calculate`. -/
def logF (a b C D P : Nat) : Except GFError Nat :=
  if a = 0 then .error .domainError
  else
    let ORDER := C ^ D
    .ok (logLoopF a b C D P (ORDER - 1) (ORDER - 1) 1 0)

theorem log_calculate_eq_logF (a b C D P : Nat) :
    log_calculate a b C D P = logF a b C D P := by
  rw [log_calculate, logF]
  by_cases h : a = 0
  · simp [h]
  · simp only [h, if_false]
    rw [logLoopF_eq a b C D P (C ^ D - 1) (C ^ D - 1) 0 (by omega)]

/-- Evaluation form of `sqrt'`. -/
def sqrtF (a C D P : Nat) : Except GFError Nat :=
  powerF a ((C ^ (D - 1) : Nat) : Int) C D P

theorem sqrt'_eq_sqrtF (a C D P : Nat) : sqrt' a C D P = sqrtF a C D P := by
  rw [sqrt', sqrtF, power_calculate_eq_powerF]

/-- Evaluation form of `iterMul`. -/
def iterMulF (a C D P : Nat) : Nat → Nat
  | 0 => 1
  | e + 1 => multiplyF (iterMulF a C D P e) a C D P

theorem iterMul_eq_iterMulF (a C D P : Nat) : ∀ e, iterMul a C D P e = iterMulF a C D P e := by
  intro e
  induction e with
  | zero => rfl
  | succ e ih => rw [iterMul, iterMulF, ih, multiply_calculate_eq_multiplyF]

/-!
## The mathematical reference model

A natural number encodes a polynomial over GF(2) through its binary
expansion (LSB = constant coefficient).  `natPoly` is that interpretation,
into `Polynomial (ZMod 2)`; the quotient ring `AdjoinRoot (natPoly P)` is
the reference model of GF(2^m) with irreducible polynomial `P`. -/

open Polynomial

/-- The polynomial over GF(2) whose coefficient of `X^i` is bit `i` of `n`. -/
noncomputable def natPoly (n : Nat) : Polynomial (ZMod 2) :=
  if h : n = 0 then 0
  else Polynomial.C ((n % 2 : Nat) : ZMod 2) + Polynomial.X * natPoly (n / 2)
termination_by n
decreasing_by exact Nat.div_lt_self (Nat.pos_of_ne_zero h) one_lt_two

theorem natPoly_zero : natPoly 0 = 0 := by rw [natPoly]; simp

theorem natPoly_def_of_ne {n : Nat} (h : n ≠ 0) :
    natPoly n = Polynomial.C ((n % 2 : Nat) : ZMod 2) + Polynomial.X * natPoly (n / 2) := by
  rw [natPoly]; simp [h]

theorem natPoly_coeff (k : Nat) : ∀ n, (natPoly n).coeff k = ((n / 2 ^ k % 2 : Nat) : ZMod 2) := by
  induction k with
  | zero =>
    intro n
    by_cases h : n = 0
    · simp [h, natPoly_zero]
    · rw [natPoly_def_of_ne h]
      simp [coeff_add, coeff_C, mul_coeff_zero, coeff_X_zero]
  | succ k ih =>
    intro n
    by_cases h : n = 0
    · simp [h, natPoly_zero]
    · rw [natPoly_def_of_ne h]
      rw [coeff_add, coeff_C, coeff_X_mul, ih (n / 2)]
      have : n / 2 / 2 ^ k = n / 2 ^ (k + 1) := by
        rw [Nat.div_div_eq_div_mul, pow_succ, mul_comm (2 ^ k) 2]
      simp [this]

theorem natPoly_injective : Function.Injective natPoly := by
  intro x y h
  apply Nat.eq_of_testBit_eq
  intro i
  have hc : ((x / 2 ^ i % 2 : Nat) : ZMod 2) = ((y / 2 ^ i % 2 : Nat) : ZMod 2) := by
    rw [← natPoly_coeff, ← natPoly_coeff, h]
  have hx : x / 2 ^ i % 2 = 0 ∨ x / 2 ^ i % 2 = 1 := by omega
  have hy : y / 2 ^ i % 2 = 0 ∨ y / 2 ^ i % 2 = 1 := by omega
  rw [Nat.testBit_to_div_mod, Nat.testBit_to_div_mod]
  rcases hx with hx | hx <;> rcases hy with hy | hy <;>
    rw [hx, hy] at hc ⊢ <;> first | rfl | (exfalso; revert hc; decide)

theorem natPoly_xor (x y : Nat) : natPoly (x ^^^ y) = natPoly x + natPoly y := by
  apply Polynomial.ext
  intro k
  rw [coeff_add, natPoly_coeff, natPoly_coeff, natPoly_coeff]
  have h1 := Nat.testBit_xor x y k
  rw [Nat.testBit_to_div_mod, Nat.testBit_to_div_mod, Nat.testBit_to_div_mod] at h1
  have hx : x / 2 ^ k % 2 = 0 ∨ x / 2 ^ k % 2 = 1 := by omega
  have hy : y / 2 ^ k % 2 = 0 ∨ y / 2 ^ k % 2 = 1 := by omega
  have hw : (x ^^^ y) / 2 ^ k % 2 = 0 ∨ (x ^^^ y) / 2 ^ k % 2 = 1 := by omega
  rcases hx with hx | hx <;> rcases hy with hy | hy <;> rw [hx, hy] at h1 ⊢ <;>
    rcases hw with hw | hw <;> rw [hw] at h1 ⊢ <;> revert h1 <;> decide

theorem natPoly_two_mul (n : Nat) : natPoly (2 * n) = Polynomial.X * natPoly n := by
  by_cases h : n = 0
  · simp [h, natPoly_zero]
  · have h2 : 2 * n ≠ 0 := by omega
    rw [natPoly_def_of_ne h2]
    have hm : 2 * n % 2 = 0 := by omega
    have hd : 2 * n / 2 = n := by omega
    simp [hm, hd]

theorem natPoly_one : natPoly 1 = 1 := by
  rw [natPoly_def_of_ne one_ne_zero]
  norm_num [natPoly_zero]

theorem natPoly_degree_lt {n D : Nat} (h : n < 2 ^ D) : (natPoly n).degree < (D : ℕ) := by
  rw [Polynomial.degree_lt_iff_coeff_zero]
  intro m hm
  rw [natPoly_coeff]
  have : n / 2 ^ m = 0 := Nat.div_eq_of_lt (lt_of_lt_of_le h (Nat.pow_le_pow_right (by norm_num) hm))
  simp [this]

theorem natPoly_coeff_high {D P : Nat} (hP1 : 2 ^ D ≤ P) (hP2 : P < 2 ^ (D + 1)) :
    (natPoly P).coeff D = 1 := by
  rw [natPoly_coeff]
  have h1 : P / 2 ^ D = 1 := by
    apply Nat.div_eq_of_lt_le
    · simpa using hP1
    · have : 2 ^ (D + 1) = 2 * 2 ^ D := by rw [pow_succ, mul_comm]
      omega
  simp [h1]

theorem natPoly_degree_eq {D P : Nat} (hP1 : 2 ^ D ≤ P) (hP2 : P < 2 ^ (D + 1)) :
    (natPoly P).degree = (D : ℕ) := by
  apply le_antisymm
  · rw [Polynomial.degree_le_iff_coeff_zero]
    intro m hm
    have hDm : D < m := by exact_mod_cast hm
    rw [natPoly_coeff]
    have : P / 2 ^ m = 0 :=
      Nat.div_eq_of_lt (lt_of_lt_of_le hP2 (Nat.pow_le_pow_right (by norm_num) hDm))
    simp [this]
  · apply Polynomial.le_degree_of_ne_zero
    rw [natPoly_coeff_high hP1 hP2]
    exact one_ne_zero

theorem natPoly_monic {D P : Nat} (hP1 : 2 ^ D ≤ P) (hP2 : P < 2 ^ (D + 1)) :
    (natPoly P).Monic := by
  apply Polynomial.monic_of_natDegree_le_of_coeff_eq_one D
  · exact Polynomial.natDegree_le_iff_degree_le.mpr (le_of_eq (natPoly_degree_eq hP1 hP2))
  · exact natPoly_coeff_high hP1 hP2

/-- The interpretation of an element encoding in the quotient ring
`GF(2)[X] / (natPoly P)`. -/
noncomputable def embed (P a : Nat) : AdjoinRoot (natPoly P) :=
  AdjoinRoot.mk (natPoly P) (natPoly a)

theorem embed_zero (P : Nat) : embed P 0 = 0 := by
  rw [embed, natPoly_zero, map_zero]

theorem embed_one (P : Nat) : embed P 1 = 1 := by
  rw [embed, natPoly_one, map_one]

theorem embed_self (P : Nat) : embed P P = 0 := AdjoinRoot.mk_self

theorem embed_xor (P x y : Nat) : embed P (x ^^^ y) = embed P x + embed P y := by
  rw [embed, embed, embed, natPoly_xor, map_add]

theorem embed_two_mul (P x : Nat) :
    embed P (2 * x) = AdjoinRoot.mk (natPoly P) Polynomial.X * embed P x := by
  rw [embed, embed, natPoly_two_mul, map_mul]

theorem mulLoop_embed (O P : Nat) :
    ∀ b a c, embed P (mulLoop O P a b c) = embed P c + embed P a * embed P b := by
  intro b
  induction b using Nat.strong_induction_on with
  | _ b ih =>
    intro a c
    rw [mulLoop]
    by_cases h : b = 0
    · simp [h, embed_zero]
    · simp only [h, dite_false]
      rw [ih (b / 2) (Nat.div_lt_self (Nat.pos_of_ne_zero h) one_lt_two)]
      have hb : embed P b =
          AdjoinRoot.mk (natPoly P) (Polynomial.C ((b % 2 : Nat) : ZMod 2)) +
            AdjoinRoot.mk (natPoly P) Polynomial.X * embed P (b / 2) := by
        rw [embed, natPoly_def_of_ne h, map_add, map_mul]; rfl
      have ha : embed P (if O ≤ 2 * a then (2 * a) ^^^ P else 2 * a) =
          AdjoinRoot.mk (natPoly P) Polynomial.X * embed P a := by
        by_cases hr : O ≤ 2 * a
        · simp only [hr, if_true]
          rw [embed_xor, embed_self, add_zero, embed_two_mul]
        · simp only [hr, if_false]
          exact embed_two_mul P a
      rw [ha, hb]
      by_cases hp : b % 2 = 1
      · simp only [hp, if_true]
        rw [embed_xor]
        have h1 : ((1 : Nat) : ZMod 2) = 1 := Nat.cast_one
        rw [h1, Polynomial.C_1, map_one]
        ring
      · simp only [hp, if_false]
        have h0 : b % 2 = 0 := by omega
        rw [h0]
        have : ((0 : Nat) : ZMod 2) = 0 := Nat.cast_zero
        rw [this, Polynomial.C_0, map_zero]
        ring

theorem xor_high_lt {D x y : Nat} (hx1 : 2 ^ D ≤ x) (hx2 : x < 2 ^ (D + 1))
    (hy1 : 2 ^ D ≤ y) (hy2 : y < 2 ^ (D + 1)) : x ^^^ y < 2 ^ D := by
  apply Nat.lt_pow_two_of_testBit
  intro i hi
  rw [Nat.testBit_xor]
  have hbit : ∀ z, 2 ^ D ≤ z → z < 2 ^ (D + 1) → z.testBit D = true := by
    intro z h1 h2
    rw [Nat.testBit_to_div_mod]
    have hz : z / 2 ^ D = 1 := by
      apply Nat.div_eq_of_lt_le
      · simpa using h1
      · have : 2 ^ (D + 1) = 2 * 2 ^ D := by rw [pow_succ, mul_comm]
        omega
    simp [hz]
  rcases Nat.eq_or_lt_of_le hi with rfl | hlt
  · rw [hbit x hx1 hx2, hbit y hy1 hy2]
    rfl
  · have hxi : x.testBit i = false :=
      Nat.testBit_lt_two_pow (lt_of_lt_of_le hx2 (Nat.pow_le_pow_right (by norm_num) hlt))
    have hyi : y.testBit i = false :=
      Nat.testBit_lt_two_pow (lt_of_lt_of_le hy2 (Nat.pow_le_pow_right (by norm_num) hlt))
    rw [hxi, hyi]
    rfl

theorem mulLoop_lt {D P : Nat} (hP1 : 2 ^ D ≤ P) (hP2 : P < 2 ^ (D + 1)) :
    ∀ b a c, a < 2 ^ D → c < 2 ^ D → mulLoop (2 ^ D) P a b c < 2 ^ D := by
  intro b
  induction b using Nat.strong_induction_on with
  | _ b ih =>
    intro a c ha hc
    rw [mulLoop]
    by_cases h : b = 0
    · simp [h, hc]
    · simp only [h, dite_false]
      apply ih (b / 2) (Nat.div_lt_self (Nat.pos_of_ne_zero h) one_lt_two)
      · by_cases hr : 2 ^ D ≤ 2 * a
        · simp only [hr, if_true]
          exact xor_high_lt hr (by omega) hP1 hP2
        · simp only [hr, if_false]
          omega
      · by_cases hp : b % 2 = 1
        · simp only [hp, if_true]
          exact Nat.xor_lt_two_pow hc ha
        · simp only [hp, if_false]
          exact hc

theorem multiply_embed (D P a b : Nat) :
    embed P (multiply_calculate a b 2 D P) = embed P a * embed P b := by
  rw [multiply_calculate]
  by_cases h : a < b
  · simp only [h, if_true]
    rw [mulLoop_embed, embed_zero, zero_add, mul_comm]
  · simp only [h, if_false]
    rw [mulLoop_embed, embed_zero, zero_add]

theorem multiply_lt {D P : Nat} (hP1 : 2 ^ D ≤ P) (hP2 : P < 2 ^ (D + 1))
    {a b : Nat} (ha : a < 2 ^ D) (hb : b < 2 ^ D) :
    multiply_calculate a b 2 D P < 2 ^ D := by
  rw [multiply_calculate]
  by_cases h : a < b
  · simp only [h, if_true]
    exact mulLoop_lt hP1 hP2 a b 0 hb (Nat.pos_pow_of_pos D (by norm_num))
  · simp only [h, if_false]
    exact mulLoop_lt hP1 hP2 b a 0 ha (Nat.pos_pow_of_pos D (by norm_num))

theorem embed_inj {D P : Nat} (hP1 : 2 ^ D ≤ P) (hP2 : P < 2 ^ (D + 1))
    {a b : Nat} (ha : a < 2 ^ D) (hb : b < 2 ^ D) (h : embed P a = embed P b) : a = b := by
  rw [embed, embed, AdjoinRoot.mk_eq_mk] at h
  have hdeg : (natPoly a - natPoly b).degree < (natPoly P).degree := by
    calc (natPoly a - natPoly b).degree
        ≤ max (natPoly a).degree (natPoly b).degree := Polynomial.degree_sub_le _ _
      _ < (D : ℕ) := max_lt (natPoly_degree_lt ha) (natPoly_degree_lt hb)
      _ = (natPoly P).degree := (natPoly_degree_eq hP1 hP2).symm
  have h0 : natPoly a - natPoly b = 0 := Polynomial.eq_zero_of_dvd_of_degree_lt h hdeg
  exact natPoly_injective (sub_eq_zero.mp h0)

theorem one_lt_two_pow_of_le {D : Nat} (hD : 1 ≤ D) : 1 < 2 ^ D := by
  have : 2 ^ 1 ≤ 2 ^ D := Nat.pow_le_pow_right (by norm_num) hD
  omega

theorem multiply_modByMonic {D P : Nat} (hP1 : 2 ^ D ≤ P) (hP2 : P < 2 ^ (D + 1))
    {a b : Nat} (ha : a < 2 ^ D) (hb : b < 2 ^ D) :
    natPoly (multiply_calculate a b 2 D P) = (natPoly a * natPoly b) %ₘ natPoly P := by
  have hmon := natPoly_monic hP1 hP2
  have hdvd : natPoly P ∣ natPoly a * natPoly b - natPoly (multiply_calculate a b 2 D P) := by
    rw [← AdjoinRoot.mk_eq_mk]
    have h := multiply_embed D P a b
    rw [embed, embed, embed, ← map_mul] at h
    exact h.symm
  have hself : natPoly (multiply_calculate a b 2 D P) %ₘ natPoly P
      = natPoly (multiply_calculate a b 2 D P) := by
    rw [Polynomial.modByMonic_eq_self_iff hmon, natPoly_degree_eq hP1 hP2]
    exact natPoly_degree_lt (multiply_lt hP1 hP2 ha hb)
  rw [← hself, Polynomial.modByMonic_eq_of_dvd_sub hmon hdvd]

theorem smLoop_spec {D P : Nat} (hP1 : 2 ^ D ≤ P) (hP2 : P < 2 ^ (D + 1)) :
    ∀ e s m, 1 ≤ e → s < 2 ^ D → m < 2 ^ D →
      (smLoop 2 D P e s m).1 < 2 ^ D ∧ (smLoop 2 D P e s m).2 < 2 ^ D ∧
        embed P (smLoop 2 D P e s m).2 * embed P (smLoop 2 D P e s m).1 =
          embed P m * embed P s ^ e := by
  intro e
  induction e using Nat.strong_induction_on with
  | _ e ih =>
    intro s m he hs hm
    rw [smLoop]
    by_cases h1 : e ≤ 1
    · have he1 : e = 1 := by omega
      simp [h1, he1, pow_one]
      exact ⟨hs, hm⟩
    · simp only [h1, if_false]
      by_cases h2 : e % 2 = 0
      · simp only [h2, if_true]
        obtain ⟨hA, hB, hC⟩ :=
          ih (e / 2) (Nat.div_lt_self (by omega) one_lt_two)
            (multiply_calculate s s 2 D P) m (by omega)
            (multiply_lt hP1 hP2 hs hs) hm
        refine ⟨hA, hB, ?_⟩
        rw [hC, multiply_embed, ← pow_two, ← pow_mul]
        congr 2
        omega
      · simp only [h2, if_false]
        obtain ⟨hA, hB, hC⟩ :=
          ih (e - 1) (by omega) s
            (multiply_calculate m s 2 D P) (by omega) hs
            (multiply_lt hP1 hP2 hm hs)
        refine ⟨hA, hB, ?_⟩
        rw [hC, multiply_embed]
        have hsplit : e = (e - 1) + 1 := by omega
        calc embed P m * embed P s * embed P s ^ (e - 1)
            = embed P m * (embed P s ^ (e - 1) * embed P s) := by ring
          _ = embed P m * embed P s ^ e := by rw [← pow_succ, ← hsplit]

theorem reciprocal_spec {D P : Nat} (hD : 1 ≤ D) (hP1 : 2 ^ D ≤ P) (hP2 : P < 2 ^ (D + 1))
    {a : Nat} (ha0 : a ≠ 0) (ha : a < 2 ^ D) :
    ∃ r, reciprocal_calculate a 2 D P = .ok r ∧ r < 2 ^ D ∧
      embed P r = embed P a ^ (2 ^ D - 2) := by
  rw [reciprocal_calculate]
  simp only [ha0, if_false]
  by_cases hD1 : D = 1
  · subst hD1
    have ha1 : a = 1 := by omega
    subst ha1
    have he0 : 2 ^ 1 - 2 = 0 := by norm_num
    rw [he0, smLoop]
    simp only [Nat.zero_le, if_true, zero_le_one]
    refine ⟨_, rfl, multiply_lt hP1 hP2 (by norm_num) (by norm_num), ?_⟩
    rw [multiply_embed, embed_one, one_mul, pow_zero]
  · have h4 : 4 ≤ 2 ^ D := by
      have : 2 ^ 2 ≤ 2 ^ D := Nat.pow_le_pow_right (by norm_num) (by omega)
      omega
    obtain ⟨hA, hB, hC⟩ := smLoop_spec hP1 hP2 (2 ^ D - 2) a 1 (by omega) ha
      (one_lt_two_pow_of_le hD)
    refine ⟨_, rfl, multiply_lt hP1 hP2 hB hA, ?_⟩
    rw [multiply_embed, hC, embed_one, one_mul]

theorem iterMul_spec {D P : Nat} (hD : 1 ≤ D) (hP1 : 2 ^ D ≤ P) (hP2 : P < 2 ^ (D + 1))
    {a : Nat} (ha : a < 2 ^ D) (e : Nat) :
    iterMul a 2 D P e < 2 ^ D ∧ embed P (iterMul a 2 D P e) = embed P a ^ e := by
  induction e with
  | zero =>
    exact ⟨one_lt_two_pow_of_le hD, by rw [iterMul, embed_one, pow_zero]⟩
  | succ e ih =>
    refine ⟨multiply_lt hP1 hP2 ih.1 ha, ?_⟩
    rw [iterMul, multiply_embed, ih.2, ← pow_succ]

theorem power_nonneg_spec {D P : Nat} (hD : 1 ≤ D) (hP1 : 2 ^ D ≤ P) (hP2 : P < 2 ^ (D + 1))
    {a : Nat} (ha : a < 2 ^ D) (e : Nat) :
    power_calculate a (e : Int) 2 D P = .ok (iterMul a 2 D P e) := by
  rw [power_calculate]
  have h0 : ¬(a = 0 ∧ (e : Int) < 0) := by
    rintro ⟨-, hlt⟩
    omega
  simp only [h0, if_false]
  by_cases he : e = 0
  · subst he
    norm_num [iterMul]
  · have he' : (e : Int) ≠ 0 := by exact_mod_cast he
    have hneg : ¬((e : Int) < 0) := by omega
    simp only [he', if_false, hneg, ok_bind]
    have hnat : (e : Int).natAbs = e := Int.natAbs_ofNat e
    rw [hnat]
    obtain ⟨hA, hB, hC⟩ := smLoop_spec hP1 hP2 e a 1 (by omega) ha (one_lt_two_pow_of_le hD)
    obtain ⟨hI1, hI2⟩ := iterMul_spec hD hP1 hP2 ha e
    congr 1
    apply embed_inj hP1 hP2 (multiply_lt hP1 hP2 hB hA) hI1
    rw [multiply_embed, hC, embed_one, one_mul, hI2]

theorem embed_pow_card_sub_one {D P : Nat} (hP1 : 2 ^ D ≤ P) (hP2 : P < 2 ^ (D + 1))
    (hirr : Irreducible (natPoly P)) {a : Nat} (ha0 : a ≠ 0) (ha : a < 2 ^ D) :
    embed P a ^ (2 ^ D - 1) = 1 := by
  haveI : Fact (Irreducible (natPoly P)) := ⟨hirr⟩
  have hmon := natPoly_monic hP1 hP2
  have hdeg : (natPoly P).natDegree = D :=
    Polynomial.natDegree_eq_of_degree_eq_some (natPoly_degree_eq hP1 hP2)
  let pb := AdjoinRoot.powerBasis' hmon
  let eqv := pb.basis.equivFun
  haveI : Fintype (AdjoinRoot (natPoly P)) := Fintype.ofEquiv _ eqv.toEquiv.symm
  have hcard : Fintype.card (AdjoinRoot (natPoly P)) = 2 ^ D := by
    rw [Fintype.card_congr eqv.toEquiv, Fintype.card_fun, ZMod.card, Fintype.card_fin]
    have hdim : pb.dim = D := by
      rw [AdjoinRoot.powerBasis'_dim, hdeg]
    rw [hdim]
  have hne : embed P a ≠ 0 := by
    intro hc
    refine ha0 (embed_inj hP1 hP2 ha ?_ ?_)
    · exact Nat.pos_pow_of_pos D (by norm_num)
    · rw [hc, embed_zero]
  have hfermat := FiniteField.pow_card_sub_one_eq_one (embed P a) hne
  rwa [hcard] at hfermat

theorem reciprocal_mul_one {D P : Nat} (hD : 1 ≤ D) (hP1 : 2 ^ D ≤ P) (hP2 : P < 2 ^ (D + 1))
    (hirr : Irreducible (natPoly P)) {a : Nat} (ha0 : a ≠ 0) (ha : a < 2 ^ D) :
    ∃ r, reciprocal_calculate a 2 D P = .ok r ∧ multiply_calculate a r 2 D P = 1 := by
  obtain ⟨r, hr, hrlt, hre⟩ := reciprocal_spec hD hP1 hP2 ha0 ha
  refine ⟨r, hr, ?_⟩
  apply embed_inj hP1 hP2 (multiply_lt hP1 hP2 ha hrlt) (one_lt_two_pow_of_le hD)
  rw [multiply_embed, hre, embed_one, ← pow_succ']
  have he : 2 ^ D - 2 + 1 = 2 ^ D - 1 := by
    have := one_lt_two_pow_of_le hD
    omega
  rw [show embed P a ^ (2 ^ D - 2 + 1) = embed P a ^ (2 ^ D - 1) from by rw [he]]
  exact embed_pow_card_sub_one hP1 hP2 hirr ha0 ha

theorem divide_spec {D P : Nat} (hD : 1 ≤ D) (hP1 : 2 ^ D ≤ P) (hP2 : P < 2 ^ (D + 1))
    (hirr : Irreducible (natPoly P)) {a b : Nat} (ha : a < 2 ^ D) (hb : b < 2 ^ D)
    (hb0 : b ≠ 0) :
    ∃ q, divide_calculate a b 2 D P = .ok q ∧ multiply_calculate q b 2 D P = a ∧
      (a = 0 → q = 0) ∧
      (a ≠ 0 → ∃ binv, reciprocal_calculate b 2 D P = .ok binv ∧
        q = multiply_calculate a binv 2 D P) := by
  rw [divide_calculate]
  simp only [hb0, if_false]
  by_cases ha0 : a = 0
  · subst ha0
    simp only [if_true]
    refine ⟨0, rfl, ?_, fun _ => rfl, fun h => absurd rfl h⟩
    apply embed_inj hP1 hP2
      (multiply_lt hP1 hP2 (Nat.pos_pow_of_pos D (by norm_num)) hb)
      (Nat.pos_pow_of_pos D (by norm_num))
    rw [multiply_embed, embed_zero, zero_mul]
  · simp only [ha0, if_false]
    obtain ⟨r, hr, hrlt, hre⟩ := reciprocal_spec hD hP1 hP2 hb0 hb
    rw [hr, ok_bind]
    refine ⟨multiply_calculate a r 2 D P, rfl, ?_, ?_, ?_⟩
    · apply embed_inj hP1 hP2
        (multiply_lt hP1 hP2 (multiply_lt hP1 hP2 ha hrlt) hb) ha
      rw [multiply_embed, multiply_embed, hre]
      have hf := embed_pow_card_sub_one hP1 hP2 hirr hb0 hb
      have he : 2 ^ D - 2 + 1 = 2 ^ D - 1 := by
        have := one_lt_two_pow_of_le hD
        omega
      calc embed P a * embed P b ^ (2 ^ D - 2) * embed P b
          = embed P a * embed P b ^ (2 ^ D - 2 + 1) := by rw [pow_succ]; ring
        _ = embed P a * embed P b ^ (2 ^ D - 1) := by rw [he]
        _ = embed P a := by rw [hf, mul_one]
    · intro h
      exact h.elim
    · intro _
      exact ⟨r, rfl, rfl⟩

theorem sqrt_spec {D P : Nat} (hD : 1 ≤ D) (hP1 : 2 ^ D ≤ P) (hP2 : P < 2 ^ (D + 1))
    (hirr : Irreducible (natPoly P)) {a : Nat} (ha : a < 2 ^ D) :
    ∃ s, sqrt' a 2 D P = .ok s ∧ multiply_calculate s s 2 D P = a := by
  rw [sqrt']
  refine ⟨_, power_nonneg_spec hD hP1 hP2 ha (2 ^ (D - 1)), ?_⟩
  obtain ⟨hslt, hse⟩ := iterMul_spec hD hP1 hP2 ha (2 ^ (D - 1))
  apply embed_inj hP1 hP2 (multiply_lt hP1 hP2 hslt hslt) ha
  rw [multiply_embed, hse, ← pow_add]
  have h2 : 2 ^ (D - 1) + 2 ^ (D - 1) = 2 ^ D := by
    conv_rhs => rw [show D = D - 1 + 1 from by omega]
    rw [pow_succ]
    ring
  rw [h2]
  by_cases ha0 : a = 0
  · subst ha0
    rw [embed_zero, zero_pow (by positivity)]
  · have hf := embed_pow_card_sub_one hP1 hP2 hirr ha0 ha
    have hsplit : (2 : Nat) ^ D = 2 ^ D - 1 + 1 := by
      have := one_lt_two_pow_of_le hD
      omega
    rw [hsplit, pow_succ, hf, one_mul]

/-!
## Analysis of the discrete-logarithm loop -/

theorem logLoop_le (a b C D P N : Nat) :
    ∀ fuel i r, N - i ≤ fuel → i ≤ N - 1 → logLoop a b C D P N r i ≤ N - 1 := by
  intro fuel
  induction fuel with
  | zero =>
    intro i r hf hi
    rw [logLoop]
    have h2 : ¬(i + 1 < N) := by omega
    by_cases hr : r = a <;> simp [hr, h2, hi]
  | succ fuel ih =>
    intro i r hf hi
    rw [logLoop]
    by_cases hr : r = a
    · simp [hr, hi]
    · simp only [hr, if_false]
      by_cases h2 : i + 1 < N
      · simp only [h2, if_true]
        exact ih (i + 1) _ (by omega) (by omega)
      · simp only [h2, if_false]
        exact hi

theorem logLoop_finds (a b C D P N k : Nat) (hk : k ≤ N - 1)
    (hmatch : iterMul b C D P k = a) :
    ∀ fuel i, k - i ≤ fuel → i ≤ k →
      (∀ j, i ≤ j → j < k → iterMul b C D P j ≠ a) →
      logLoop a b C D P N (iterMul b C D P i) i = k := by
  intro fuel
  induction fuel with
  | zero =>
    intro i hf hik hno
    have hik' : i = k := by omega
    subst hik'
    rw [logLoop]
    simp [hmatch]
  | succ fuel ih =>
    intro i hf hik hno
    rw [logLoop]
    by_cases hr : iterMul b C D P i = a
    · have hik' : i = k := by
        rcases Nat.eq_or_lt_of_le hik with h | h
        · exact h
        · exact absurd hr (hno i le_rfl h)
      rw [if_pos hr]
      exact hik'
    · have hik' : i < k := by
        rcases Nat.eq_or_lt_of_le hik with h | h
        · exact absurd (h ▸ hmatch) hr
        · exact h
      have h2 : i + 1 < N := by omega
      simp only [hr, if_false, h2, if_true]
      rw [show multiply_calculate (iterMul b C D P i) b C D P = iterMul b C D P (i + 1)
        from rfl]
      exact ih (i + 1) (by omega) (by omega) fun j hj hjk => hno j (by omega) hjk

theorem logLoop_nomatch (a b C D P N : Nat)
    (hno : ∀ j, j ≤ N - 1 → iterMul b C D P j ≠ a) :
    ∀ fuel i, N - 1 - i ≤ fuel → i ≤ N - 1 →
      logLoop a b C D P N (iterMul b C D P i) i = N - 1 := by
  intro fuel
  induction fuel with
  | zero =>
    intro i hf hi
    have hi' : i = N - 1 := by omega
    subst hi'
    rw [logLoop]
    have h2 : ¬(N - 1 + 1 < N) := by omega
    simp [hno (N - 1) le_rfl, h2]
  | succ fuel ih =>
    intro i hf hi
    rw [logLoop]
    have hr : iterMul b C D P i ≠ a := hno i hi
    simp only [hr, if_false]
    by_cases h2 : i + 1 < N
    · simp only [h2, if_true]
      rw [show multiply_calculate (iterMul b C D P i) b C D P = iterMul b C D P (i + 1)
        from rfl]
      exact ih (i + 1) (by omega) (by omega)
    · have hi' : i = N - 1 := by omega
      simp only [h2, if_false]
      exact hi'

theorem log_spec_total {D P : Nat} (a b : Nat) (hD : 1 ≤ D) (ha0 : a ≠ 0) :
    ∃ r, log_calculate a b 2 D P = .ok r ∧ r ≤ 2 ^ D - 2 ∧
      ((∀ e, e ≤ 2 ^ D - 2 → iterMul b 2 D P e ≠ a) → r = 2 ^ D - 2) := by
  rw [log_calculate]
  simp only [ha0, if_false]
  have hN : 1 ≤ 2 ^ D := Nat.pos_pow_of_pos D (by norm_num)
  refine ⟨_, rfl, ?_, ?_⟩
  · have h := logLoop_le a b 2 D P (2 ^ D - 1) (2 ^ D - 1) 0 1 (by omega) (by omega)
    omega
  · intro hno
    have h := logLoop_nomatch a b 2 D P (2 ^ D - 1)
      (fun j hj => hno j (by omega)) (2 ^ D - 1) 0 (by omega) (by omega)
    rw [show iterMul b 2 D P 0 = 1 from rfl] at h
    omega

theorem log_finds {D P a b e : Nat} (ha0 : a ≠ 0) (he : e ≤ 2 ^ D - 2)
    (hmatch : iterMul b 2 D P e = a)
    (hleast : ∀ j, j < e → iterMul b 2 D P j ≠ a) :
    log_calculate a b 2 D P = .ok e := by
  rw [log_calculate]
  simp only [ha0, if_false]
  have hN : 1 ≤ 2 ^ D := Nat.pos_pow_of_pos D (by norm_num)
  have h := logLoop_finds a b 2 D P (2 ^ D - 1) e (by omega) hmatch e 0
    (by omega) (by omega) fun j hj hjk => hleast j hjk
  rw [show iterMul b 2 D P 0 = 1 from rfl] at h
  rw [h]

/-- `b` encodes a primitive element of GF(2^m): its image in the quotient
ring has multiplicative order `2^m - 1` (it generates the multiplicative
group of the field). -/
def IsPrimitiveElem (b D P : Nat) : Prop :=
  orderOf (embed P b) = 2 ^ D - 1

theorem embed_ne_zero_of_primitive {D P b : Nat} (hD : 1 ≤ D)
    (hP1 : 2 ^ D ≤ P) (hP2 : P < 2 ^ (D + 1)) (hirr : Irreducible (natPoly P))
    (hprim : IsPrimitiveElem b D P) : embed P b ≠ 0 := by
  haveI : Fact (Irreducible (natPoly P)) := ⟨hirr⟩
  intro hc
  have h1 := pow_orderOf_eq_one (embed P b)
  rw [hprim, hc] at h1
  have h2 : 2 ^ D - 1 ≠ 0 := by
    have := one_lt_two_pow_of_le hD
    omega
  rw [zero_pow h2] at h1
  exact zero_ne_one h1

theorem embed_pow_inj_aux {D P b : Nat} (hD : 1 ≤ D)
    (hP1 : 2 ^ D ≤ P) (hP2 : P < 2 ^ (D + 1)) (hirr : Irreducible (natPoly P))
    (hprim : IsPrimitiveElem b D P) {i j : Nat} (hij : i ≤ j) (hj : j < 2 ^ D - 1)
    (h : embed P b ^ i = embed P b ^ j) : i = j := by
  haveI : Fact (Irreducible (natPoly P)) := ⟨hirr⟩
  have hbne := embed_ne_zero_of_primitive hD hP1 hP2 hirr hprim
  have hone : embed P b ^ (j - i) = 1 := by
    have hsplit : j = (j - i) + i := by omega
    rw [hsplit, pow_add] at h
    have hcancel : (1 : AdjoinRoot (natPoly P)) = embed P b ^ (j - i) :=
      mul_right_cancel₀ (pow_ne_zero i hbne) ((one_mul _).trans h)
    exact hcancel.symm
  have hdvd := orderOf_dvd_of_pow_eq_one hone
  rw [hprim] at hdvd
  rcases Nat.eq_zero_or_pos (j - i) with h0 | hpos
  · omega
  · have := Nat.le_of_dvd hpos hdvd
    omega

theorem embed_pow_inj {D P b : Nat} (hD : 1 ≤ D)
    (hP1 : 2 ^ D ≤ P) (hP2 : P < 2 ^ (D + 1)) (hirr : Irreducible (natPoly P))
    (hprim : IsPrimitiveElem b D P) {i j : Nat}
    (hi : i < 2 ^ D - 1) (hj : j < 2 ^ D - 1)
    (h : embed P b ^ i = embed P b ^ j) : i = j := by
  rcases le_total i j with hij | hij
  · exact embed_pow_inj_aux hD hP1 hP2 hirr hprim hij hj h
  · exact (embed_pow_inj_aux hD hP1 hP2 hirr hprim hij hi h.symm).symm

/-!
## A concrete field: GF(2^3) with irreducible polynomial 0b1011 -/

theorem natPoly_eleven :
    natPoly 11 = Polynomial.X ^ 3 + Polynomial.X + 1 := by
  rw [natPoly_def_of_ne (by norm_num : (11 : Nat) ≠ 0)]
  norm_num
  rw [natPoly_def_of_ne (by norm_num : (5 : Nat) ≠ 0)]
  norm_num
  rw [natPoly_def_of_ne (by norm_num : (2 : Nat) ≠ 0)]
  norm_num
  rw [natPoly_def_of_ne (by norm_num : (1 : Nat) ≠ 0)]
  norm_num [natPoly_zero]
  ring

theorem irreducible_natPoly_eleven : Irreducible (natPoly 11) := by
  rw [natPoly_eleven]
  have hmon : (Polynomial.X ^ 3 + Polynomial.X + 1 : Polynomial (ZMod 2)).Monic := by
    have h : (Polynomial.X ^ 3 + Polynomial.X + 1 : Polynomial (ZMod 2))
        = Polynomial.X ^ 3 + (Polynomial.X + 1) := by ring
    rw [h]
    apply Polynomial.monic_X_pow_add
    have h1 : (Polynomial.X + 1 : Polynomial (ZMod 2)).degree ≤ 1 :=
      le_trans (Polynomial.degree_add_le _ _)
        (max_le (le_of_eq Polynomial.degree_X)
          (le_trans Polynomial.degree_one_le (by norm_num)))
    exact lt_of_le_of_lt h1 (by norm_num)
  have hdeg : (Polynomial.X ^ 3 + Polynomial.X + 1 : Polynomial (ZMod 2)).natDegree = 3 := by
    compute_degree!
  rw [hmon.irreducible_iff_roots_eq_zero_of_degree_le_three
    (by rw [hdeg]; norm_num) (by rw [hdeg])]
  rw [Multiset.eq_zero_iff_forall_not_mem]
  intro x hx
  have hroot := (Polynomial.mem_roots hmon.ne_zero).mp hx
  rw [Polynomial.IsRoot] at hroot
  revert hroot
  fin_cases x <;> simp <;> decide

theorem primitive_two_eleven : IsPrimitiveElem 2 3 11 := by
  rw [IsPrimitiveElem]
  have h7 : embed 11 2 ^ 7 = 1 := by
    have h := embed_pow_card_sub_one (D := 3) (P := 11) (by norm_num) (by norm_num)
      irreducible_natPoly_eleven (a := 2) (by norm_num) (by norm_num)
    norm_num at h
    exact h
  have hdvd : orderOf (embed 11 2) ∣ 7 := orderOf_dvd_of_pow_eq_one h7
  have hne1 : orderOf (embed 11 2) ≠ 1 := by
    intro hc
    rw [orderOf_eq_one_iff] at hc
    have h21 : (2 : Nat) = 1 := by
      apply embed_inj (D := 3) (P := 11) (by norm_num) (by norm_num) (by norm_num) (by norm_num)
      rw [hc, embed_one]
    norm_num at h21
  have h7p : Nat.Prime 7 := by norm_num
  rcases (Nat.Prime.eq_one_or_self_of_dvd h7p _ hdvd) with h | h
  · exact absurd h hne1
  · simpa using h

/-!
## Claim theorems -/

/-- C1: for every degree `m ≥ 1`, every irreducible-polynomial encoding `P`
with `2^m ≤ P < 2^(m+1)` and all field elements `a, b < 2^m`,
`_multiply_calculate` returns the carry-less GF(2) polynomial product of
`a` and `b` reduced modulo `P` (its polynomial interpretation is the
residue `natPoly a * natPoly b %ₘ natPoly P`), and the result lies in
`[0, 2^m)`.  The function is total (it raises no error by construction). -/
theorem multiply_correct (D P a b : Nat) (hD : 1 ≤ D) (hP1 : 2 ^ D ≤ P)
    (hP2 : P < 2 ^ (D + 1)) (ha : a < 2 ^ D) (hb : b < 2 ^ D) :
    multiply_calculate a b 2 D P < 2 ^ D ∧
      natPoly (multiply_calculate a b 2 D P) = (natPoly a * natPoly b) %ₘ natPoly P :=
  ⟨multiply_lt hP1 hP2 ha hb, multiply_modByMonic hP1 hP2 ha hb⟩

theorem multiply_correct_witness :
    multiply_calculate 3 6 2 3 11 < 2 ^ 3 ∧
      natPoly (multiply_calculate 3 6 2 3 11) = (natPoly 3 * natPoly 6) %ₘ natPoly 11 :=
  multiply_correct 3 11 3 6 (by norm_num) (by norm_num) (by norm_num)
    (by norm_num) (by norm_num)

/-- C2: for every GF(2^m) descriptor (degree `≥ 1`, irreducible polynomial
in range) and every nonzero field element `a`, the reciprocal computed by
square-and-multiply satisfies `multiply(a, reciprocal(a)) = 1`. -/
theorem reciprocal_correct (D P a : Nat) (hD : 1 ≤ D) (hP1 : 2 ^ D ≤ P)
    (hP2 : P < 2 ^ (D + 1)) (hirr : Irreducible (natPoly P))
    (ha0 : a ≠ 0) (ha : a < 2 ^ D) :
    ∃ r, reciprocal_calculate a 2 D P = .ok r ∧ multiply_calculate a r 2 D P = 1 :=
  reciprocal_mul_one hD hP1 hP2 hirr ha0 ha

theorem reciprocal_correct_witness :
    ∃ r, reciprocal_calculate 2 2 3 11 = .ok r ∧ multiply_calculate 2 r 2 3 11 = 1 :=
  reciprocal_correct 3 11 2 (by norm_num) (by norm_num) (by norm_num)
    irreducible_natPoly_eleven (by norm_num) (by norm_num)

/-- C3 counterexample: in GF(2^3) with irreducible polynomial `0b1011`,
`_multiply_calculate 0b011 0b110` is NOT `0b101`: the code returns `0b001`
(indeed `(x+1)(x^2+x) = x^3+x ≡ 1 mod (x^3+x+1)`), so the claimed value
`0b101` is wrong. -/
theorem concrete_gf8_multiply_counterexample :
    multiply_calculate 3 6 2 3 11 ≠ 5 := by
  rw [multiply_calculate_eq_multiplyF]
  decide

/-- C3 amended: in GF(2^3) with irreducible polynomial `0b1011`:
`multiply(0b011, 0b110) = 0b001` (not `0b101` as claimed — the true product
`(x+1)(x^2+x) mod (x^3+x+1)` is `1`); the remaining equations hold as
claimed: `reciprocal(0b010) = 0b101`, `divide(0b001, 0b010) = 0b101`,
`power(0b010, -1) = 0b101`, and `log(0b100, 0b010) = 2`, the smallest
`e` with `0b010^e = 0b100`. -/
theorem concrete_gf8_ops :
    multiply_calculate 3 6 2 3 11 = 1 ∧
    reciprocal_calculate 2 2 3 11 = .ok 5 ∧
    divide_calculate 1 2 2 3 11 = .ok 5 ∧
    power_calculate 2 (-1) 2 3 11 = .ok 5 ∧
    log_calculate 4 2 2 3 11 = .ok 2 ∧
    iterMul 2 2 3 11 2 = 4 ∧ (∀ e, e < 2 → iterMul 2 2 3 11 e ≠ 4) := by
  refine ⟨?_, ?_, ?_, ?_, ?_, ?_, ?_⟩
  · rw [multiply_calculate_eq_multiplyF]; decide
  · rw [reciprocal_calculate_eq_reciprocalF]; decide
  · rw [divide_calculate_eq_divideF]; decide
  · rw [power_calculate_eq_powerF]; decide
  · rw [log_calculate_eq_logF]; decide
  · rw [iterMul_eq_iterMulF]; decide
  · intro e he
    rw [iterMul_eq_iterMulF]
    interval_cases e <;> decide

/-- C4: the error checks of the composite kernels: `reciprocal(0)`,
`divide(x, 0)` and `power(0, b)` for negative `b` raise
`ZeroDivisionError`; `log(0, e)` raises `ArithmeticError`. -/
theorem error_cases (D P x e : Nat) (b : Int) (hb : b < 0) :
    reciprocal_calculate 0 2 D P = .error .divisionByZero ∧
    divide_calculate x 0 2 D P = .error .divisionByZero ∧
    power_calculate 0 b 2 D P = .error .divisionByZero ∧
    log_calculate 0 e 2 D P = .error .domainError := by
  refine ⟨?_, ?_, ?_, ?_⟩
  · rw [reciprocal_calculate, if_pos rfl]
  · rw [divide_calculate, if_pos rfl]
  · rw [power_calculate, if_pos ⟨rfl, hb⟩]
  · rw [log_calculate, if_pos rfl]

theorem error_cases_witness :
    reciprocal_calculate 0 2 3 11 = .error .divisionByZero ∧
    divide_calculate 5 0 2 3 11 = .error .divisionByZero ∧
    power_calculate 0 (-1) 2 3 11 = .error .divisionByZero ∧
    log_calculate 0 2 2 3 11 = .error .domainError :=
  error_cases 3 11 5 2 (-1) (by norm_num)

/-- C5: for every field element `a` and every integer exponent `e ≥ 0`,
`_power_calculate a e` equals the `e`-fold repeated `_multiply_calculate`
product of `a` with itself (empty product `1`); in particular
`_power_calculate a 0 = 1` for every `a`, including `a = 0`. -/
theorem power_correct (D P a : Nat) (e : Int) (hD : 1 ≤ D) (hP1 : 2 ^ D ≤ P)
    (hP2 : P < 2 ^ (D + 1)) (ha : a < 2 ^ D) (he : 0 ≤ e) :
    power_calculate a e 2 D P = .ok (iterMul a 2 D P e.toNat) ∧
      power_calculate a 0 2 D P = .ok 1 := by
  constructor
  · have h := power_nonneg_spec hD hP1 hP2 ha e.toNat
    rwa [Int.toNat_of_nonneg he] at h
  · rw [power_calculate]
    have h1 : ¬(a = 0 ∧ (0 : Int) < 0) := fun hc => absurd hc.2 (lt_irrefl 0)
    rw [if_neg h1, if_pos rfl]

theorem power_correct_witness :
    (power_calculate 2 (3 : Int) 2 3 11 = .ok (iterMul 2 2 3 11 (3 : Int).toNat) ∧
      power_calculate 2 0 2 3 11 = .ok 1) :=
  power_correct 3 11 2 3 (by norm_num) (by norm_num) (by norm_num)
    (by norm_num) (by norm_num)

/-- C6: for every field element `a` and nonzero field element `b`,
dividing and multiplying back is the identity:
`multiply(divide(a, b), b) = a`; moreover the quotient is `0` when
`a = 0`, and otherwise equals `multiply(a, reciprocal(b))`. -/
theorem divide_correct (D P a b : Nat) (hD : 1 ≤ D) (hP1 : 2 ^ D ≤ P)
    (hP2 : P < 2 ^ (D + 1)) (hirr : Irreducible (natPoly P))
    (ha : a < 2 ^ D) (hb : b < 2 ^ D) (hb0 : b ≠ 0) :
    ∃ q, divide_calculate a b 2 D P = .ok q ∧ multiply_calculate q b 2 D P = a ∧
      (a = 0 → q = 0) ∧
      (a ≠ 0 → ∃ binv, reciprocal_calculate b 2 D P = .ok binv ∧
        q = multiply_calculate a binv 2 D P) :=
  divide_spec hD hP1 hP2 hirr ha hb hb0

theorem divide_correct_witness :
    ∃ q, divide_calculate 1 2 2 3 11 = .ok q ∧ multiply_calculate q 2 2 3 11 = 1 ∧
      ((1 : Nat) = 0 → q = 0) ∧
      ((1 : Nat) ≠ 0 → ∃ binv, reciprocal_calculate 2 2 3 11 = .ok binv ∧
        q = multiply_calculate 1 binv 2 3 11) :=
  divide_correct 3 11 1 2 (by norm_num) (by norm_num) (by norm_num)
    irreducible_natPoly_eleven (by norm_num) (by norm_num) (by norm_num)

/-- C7: for every primitive element `b` of GF(2^m) and every exponent
`0 ≤ e < 2^m - 1`, `log(power(b, e), b) = e`; and more generally, whenever
some exponent in range maps `b` to `a`, `_log_calculate a b` returns the
least non-negative exponent `r` with `b^r = a`. -/
theorem log_power_roundtrip (D P b e : Nat) (hD : 1 ≤ D) (hP1 : 2 ^ D ≤ P)
    (hP2 : P < 2 ^ (D + 1)) (hirr : Irreducible (natPoly P)) (hb : b < 2 ^ D)
    (hprim : IsPrimitiveElem b D P) (he : e < 2 ^ D - 1) :
    (∃ x, power_calculate b (e : Int) 2 D P = .ok x ∧
      log_calculate x b 2 D P = .ok e) ∧
    (∀ a, a ≠ 0 → (∃ i, i ≤ 2 ^ D - 2 ∧ iterMul b 2 D P i = a) →
      ∃ r, log_calculate a b 2 D P = .ok r ∧ iterMul b 2 D P r = a ∧
        ∀ j, j < r → iterMul b 2 D P j ≠ a) := by
  constructor
  · refine ⟨iterMul b 2 D P e, power_nonneg_spec hD hP1 hP2 hb e, ?_⟩
    have hx0 : iterMul b 2 D P e ≠ 0 := by
      intro hc
      have hbe : embed P b ^ e = 0 := by
        rw [← (iterMul_spec hD hP1 hP2 hb e).2, hc, embed_zero]
      have hbne := embed_ne_zero_of_primitive hD hP1 hP2 hirr hprim
      haveI : Fact (Irreducible (natPoly P)) := ⟨hirr⟩
      rcases Nat.eq_zero_or_pos e with h0 | hpos
      · subst h0
        rw [pow_zero] at hbe
        exact one_ne_zero hbe
      · exact hbne ((pow_eq_zero_iff (by omega)).mp hbe)
    apply log_finds hx0 (by omega) rfl
    intro j hj hc
    have hjj : embed P b ^ j = embed P b ^ e := by
      rw [← (iterMul_spec hD hP1 hP2 hb j).2, ← (iterMul_spec hD hP1 hP2 hb e).2, hc]
    exact absurd (embed_pow_inj hD hP1 hP2 hirr hprim (by omega) he hjj) (by omega)
  · rintro a ha0 ⟨i, hi, hmatch⟩
    classical
    have hex : ∃ k, iterMul b 2 D P k = a := ⟨i, hmatch⟩
    have hi0 : iterMul b 2 D P (Nat.find hex) = a := Nat.find_spec hex
    have hi0le : Nat.find hex ≤ i := Nat.find_min' hex hmatch
    refine ⟨Nat.find hex, log_finds ha0 (by omega) hi0 ?_, hi0, ?_⟩
    · intro j hj
      exact Nat.find_min hex hj
    · intro j hj
      exact Nat.find_min hex hj

theorem log_power_roundtrip_witness :
    (∃ x, power_calculate 2 ((5 : Nat) : Int) 2 3 11 = .ok x ∧
      log_calculate x 2 2 3 11 = .ok 5) ∧
    (∀ a, a ≠ 0 → (∃ i, i ≤ 2 ^ 3 - 2 ∧ iterMul 2 2 3 11 i = a) →
      ∃ r, log_calculate a 2 2 3 11 = .ok r ∧ iterMul 2 2 3 11 r = a ∧
        ∀ j, j < r → iterMul 2 2 3 11 j ≠ a) :=
  log_power_roundtrip 3 11 2 5 (by norm_num) (by norm_num) (by norm_num)
    irreducible_natPoly_eleven (by norm_num) primitive_two_eleven (by norm_num)

/-- C8: for every field element `a`, squaring the result of `_sqrt`
(computed as `a ^ (2^(degree-1))`) recovers `a`. -/
theorem sqrt_correct (D P a : Nat) (hD : 1 ≤ D) (hP1 : 2 ^ D ≤ P)
    (hP2 : P < 2 ^ (D + 1)) (hirr : Irreducible (natPoly P)) (ha : a < 2 ^ D) :
    ∃ s, sqrt' a 2 D P = .ok s ∧ multiply_calculate s s 2 D P = a :=
  sqrt_spec hD hP1 hP2 hirr ha

theorem sqrt_correct_witness :
    ∃ s, sqrt' 5 2 3 11 = .ok s ∧ multiply_calculate s s 2 3 11 = 5 :=
  sqrt_correct 3 11 5 (by norm_num) (by norm_num) (by norm_num)
    irreducible_natPoly_eleven (by norm_num)

/-- C9: with degree 1 (the field GF(2), order 2, elements `{0, 1}`, and an
irreducible-polynomial encoding `P ∈ {2, 3}`): multiply coincides with
logical AND, add with XOR, and the composite kernels satisfy their
contracts — in particular `reciprocal(1) = 1` even though the
square-and-multiply loop starts with exponent `order - 2 = 0`. -/
theorem gf2_boundary (P a b : Nat) (hP1 : 2 ≤ P) (hP2 : P < 4)
    (ha : a < 2) (hb : b < 2) :
    multiply_calculate a b 2 1 P = a &&& b ∧
    add_calculate a b 2 1 P = a ^^^ b ∧
    reciprocal_calculate 1 2 1 P = .ok 1 ∧
    divide_calculate a 1 2 1 P = .ok a ∧
    power_calculate 1 (-1) 2 1 P = .ok 1 ∧
    sqrt' a 2 1 P = .ok a ∧ multiply_calculate a a 2 1 P = a ∧
    log_calculate 1 1 2 1 P = .ok 0 := by
  simp only [multiply_calculate_eq_multiplyF, add_calculate,
    reciprocal_calculate_eq_reciprocalF, divide_calculate_eq_divideF,
    power_calculate_eq_powerF, sqrt'_eq_sqrtF, log_calculate_eq_logF]
  interval_cases P <;> interval_cases a <;> interval_cases b <;> decide

theorem gf2_boundary_witness :
    multiply_calculate 1 1 2 1 2 = 1 &&& 1 ∧
    add_calculate 1 1 2 1 2 = 1 ^^^ 1 ∧
    reciprocal_calculate 1 2 1 2 = .ok 1 ∧
    divide_calculate 1 1 2 1 2 = .ok 1 ∧
    power_calculate 1 (-1) 2 1 2 = .ok 1 ∧
    sqrt' 1 2 1 2 = .ok 1 ∧ multiply_calculate 1 1 2 1 2 = 1 ∧
    log_calculate 1 1 2 1 2 = .ok 0 :=
  gf2_boundary 2 1 1 (by norm_num) (by norm_num) (by norm_num) (by norm_num)

/-- C10: for every nonzero element `a` and arbitrary `b` (primitive or not,
even `0`), `_log_calculate a b` returns without error, its value lies in
`[0, order - 2]`, and when no exponent in `[0, order - 2]` satisfies
`b^e = a` it returns `order - 2` rather than signalling failure. -/
theorem log_total (D P a b : Nat) (hD : 1 ≤ D) (ha0 : a ≠ 0) :
    ∃ r, log_calculate a b 2 D P = .ok r ∧ r ≤ 2 ^ D - 2 ∧
      ((∀ e, e ≤ 2 ^ D - 2 → iterMul b 2 D P e ≠ a) → r = 2 ^ D - 2) :=
  log_spec_total a b hD ha0

theorem log_total_witness :
    ∃ r, log_calculate 7 0 2 3 11 = .ok r ∧ r ≤ 2 ^ 3 - 2 ∧
      ((∀ e, e ≤ 2 ^ 3 - 2 → iterMul 0 2 3 11 e ≠ 7) → r = 2 ^ 3 - 2) :=
  log_total 3 11 7 0 (by norm_num) (by norm_num)

end Galois
